import Mathlib

/-!
Verification of the target-rig identification module (`target.py`) of the
retarget_bvh repository: the bone-name-to-role mapping data structure
(`CTargetInfo`), its persistence format, the ancestor-role resolution pass
(`addParents`), the rig-kind guesser, and the process-wide mapping registry.

Modelling conventions (shallow embedding):
* A pose bone is a record of its name, its parent's name (`none` at a root),
  and the two custom properties `McpBone` (role) and `McpParent` (resolved
  parent-role).  Blender string properties default to the empty string, and
  Python truth-tests them (`if pb.McpBone:`), so the empty string represents
  "no role".
* A rig is the list of its pose bones in collection order.  Blender bone
  names are unique within an armature and parent links are acyclic; theorems
  that need uniqueness take it as an explicit hypothesis, and the parent
  walk is given `rig.bones.length` fuel, which is enough for any acyclic
  chain over distinct bones.
* Python `dict`s coming from parsed JSON objects are association lists whose
  keys are distinct (JSON object semantics); dictionary iteration order is
  the list order.
* Fallible operations (Python code that can raise `KeyError`) return
  `Option`: `none` models an escaping exception.
-/

/-- A pose bone of a Blender armature, with the two custom string properties
`McpBone` (assigned role) and `McpParent` (resolved parent-role) used by
`target.py`.  `parent` is the name of the parent bone, `none` for a root. -/
structure PoseBone where
  name : String
  parent : Option String
  McpBone : String
  McpParent : String
deriving Repr, DecidableEq

/-- An armature: the list of its pose bones, in collection order
(`rig.pose.bones`). -/
structure Rig where
  bones : List PoseBone
deriving Repr, DecidableEq

/-- Lookup `rig.pose.bones[bname]` as a partial operation: the bone of the given name
(bone names are unique in a Blender armature, so first match is the match). -/
def findBone (rig : Rig) (bname : String) : Option PoseBone :=
  rig.bones.find? (fun b => b.name = bname)

/-- Membership test `bname in rig.pose.bones.keys()`. -/
def hasBone (rig : Rig) (bname : String) : Bool :=
  rig.bones.any (fun b => b.name = bname)

/-- The mapping table of one rig convention (`class CTargetInfo`): a name, a
file path, the ordered list of (bone-name, role) pairs, and the explicit
bone-name → parent-role override table. -/
structure CTargetInfo where
  name : String
  filepath : String
  bones : List (String × String)
  parents : List (String × String)
deriving Repr, DecidableEq

/-- Constructor `CTargetInfo.__init__`: fresh info with the given name, filepath "None",
no bones and no parent overrides. -/
def CTargetInfo.mkNew (name : String) : CTargetInfo :=
  { name := name, filepath := "None", bones := [], parents := [] }

/-!  The JSON file shape read and written by `target.py`.  A parsed target
file is modelled by the keys the module ever touches; a key that is absent
from the JSON object is `none`, and looking it up with `struct[key]` raises
`KeyError` (modelled by `Option`). -/

/-- A parsed target-mapping JSON object, restricted to the keys `target.py`
reads or writes: `name`, `url`, `bones`, `armature`, `parents`.  The three
table-valued keys are string-to-string JSON objects, kept in key order. -/
structure JsonStruct where
  name : Option String
  url : Option String
  bones : Option (List (String × String))
  armature : Option (List (String × String))
  parents : Option (List (String × String))
deriving Repr, DecidableEq

/-- Modelled from the spec: `nameOrNone` lives in the utilities module, which
is not part of the sources; the spec's bone-name-to-role table stores a role
name per bone, with a textual null sentinel.  The helper maps the sentinel
string "None" to the absent role (the empty string in this embedding) and is
the identity otherwise. -/
def nameOrNone (s : String) : String :=
  if s = "None" then "" else s

/-- Embeds `CTargetInfo.readFile`: set the file path, then read `struct["name"]` and
`struct["bones"]` (a `KeyError` — `none` — if either key is missing), mapping
each role value through `nameOrNone`; read `struct["parents"]` only if that
key is present. -/
def CTargetInfo.readFile (info : CTargetInfo) (filepath : String)
    (struct : JsonStruct) : Option CTargetInfo :=
  match struct.name, struct.bones with
  | some n, some bs =>
      some { info with
        filepath := filepath
        name := n
        bones := bs.map (fun kv => (kv.1, nameOrNone kv.2))
        parents := match struct.parents with
          | some ps => ps
          | none => info.parents }
  | _, _ => none

/-!  `os.path` helpers used by `saveTargetFile` and `initTargets`. -/

/-- Index of the last '.' in a character list, counting from `i` for the
head. -/
def lastDotFrom : List Char → Nat → Option Nat
  | [], _ => none
  | c :: rest, i =>
    match lastDotFrom rest (i + 1) with
    | some j => some j
    | none => if c = '.' then some i else none

/-- Embeds `os.path.splitext` for plain file names: split at the rightmost dot,
unless every character before it is itself a dot (so ".json" and "..json"
have no extension). -/
def splitext (s : String) : String × String :=
  let cs := s.data
  match lastDotFrom cs 0 with
  | none => (s, "")
  | some d =>
    if (cs.take d).all (fun c => c = '.') then (s, "")
    else (String.mk (cs.take d), String.mk (cs.drop d))

/-- Embeds `os.path.basename`: the part after the last '/' (POSIX paths). -/
def pathBasename (s : String) : String :=
  String.mk ((s.data.reverse.takeWhile (fun c => c ≠ '/')).reverse)

/-- Python `str.capitalize`: first character upper-cased, the rest
lower-cased (ASCII view). -/
def pyCapitalize (s : String) : String :=
  match s.data with
  | [] => ""
  | c :: rest => String.mk (c.toUpper :: rest.map Char.toLower)

/-- Embeds `saveTargetFile`, reduced to the JSON object it writes: the file name
(extension stripped, capitalized, spaces replaced by underscores) under
`"name"`, an empty `"url"`, and the (bone-name, role) pairs of every
role-bearing bone of the rig under the key `"armature"`.  Note that the
table is written under `"armature"`, not `"bones"`. -/
def saveTargetStruct (filepath : String) (rig : Rig) : JsonStruct :=
  let fname := (splitext filepath).1
  let name := (pyCapitalize (pathBasename fname)).replace " " "_"
  let arm := rig.bones.filterMap
    (fun pb => if pb.McpBone = "" then none else some (pb.name, pb.McpBone))
  { name := some name, url := some "", bones := none,
    armature := some arm, parents := none }


/-!  The ancestor-role resolution pass `CTargetInfo.addParents` and the two
mapping operations built on it. -/

/-- The `while par:` loop of `addParents`, walking strictly upward from a
parent link: return the name of the first ancestor bearing a role, or the
empty string when the chain ends without one.  `fuel` bounds the walk; with
`rig.bones.length` fuel it covers every acyclic chain over distinct bones
(Blender forbids cyclic parenting). -/
def walkUp (rig : Rig) : Nat → Option String → String
  | _, none => ""
  | 0, some _ => ""
  | fuel + 1, some pname =>
    match findBone rig pname with
    | none => ""
    | some par => if par.McpBone = "" then walkUp rig fuel par.parent else par.name

/-- The body of the first loop of `addParents`, per bone: a role-bearing
bone gets its `McpParent` set to the walk result (the loop first clears it,
which the walk's "" default subsumes); a bone without a role is left
untouched.  The walk reads only bone names, parent links and roles, none of
which this pass modifies, so evaluating it against the incoming rig is
exact. -/
def walkAssign (rig : Rig) (pb : PoseBone) : PoseBone :=
  if pb.McpBone = "" then pb
  else { pb with McpParent := walkUp rig rig.bones.length pb.parent }

/-- Mutate the (unique) bone of the given name in a bone list, leaving every
other bone unchanged; no effect when no bone has that name. -/
def updateBone : List PoseBone → String → (PoseBone → PoseBone) → List PoseBone
  | [], _, _ => []
  | b :: rest, bname, f =>
    if b.name = bname then f b :: rest else b :: updateBone rest bname f

/-- The second loop of `addParents`: `for bname, pname in self.parents.items():
rig.pose.bones[bname].McpParent = pname`.  A bone name absent from the rig
raises `KeyError` (`none`). -/
def applyOverrides : List (String × String) → Rig → Option Rig
  | [], rig => some rig
  | (bname, pname) :: rest, rig =>
    if hasBone rig bname then
      applyOverrides rest
        ⟨updateBone rig.bones bname (fun b => { b with McpParent := pname })⟩
    else none

/-- Embeds `CTargetInfo.addParents`: for every role-bearing bone set `McpParent` to
the walk result (clearing it first, which the walk's "" default subsumes),
then apply the explicit parent-override table, which raises `KeyError` on a
bone name absent from the rig.  The walk reads only bone names, parent links
and roles, none of which this pass modifies, so evaluating it against the
incoming rig is exact. -/
def CTargetInfo.addParents (info : CTargetInfo) (rig : Rig) : Option Rig :=
  applyOverrides info.parents ⟨rig.bones.map (walkAssign rig)⟩

/-- Clearing a bone role, the first loop of `addManualBones`
(`pb.McpBone = ""`). -/
def clearRole (pb : PoseBone) : PoseBone :=
  { pb with McpBone := "" }

/-- The (bone-name, role) pairs of the role-bearing bones of a rig, in
collection order — the table `addAutoBones` builds. -/
def autoBoneList (rig : Rig) : List (String × String) :=
  rig.bones.filterMap
    (fun pb => if pb.McpBone = "" then none else some (pb.name, pb.McpBone))

/-- The assignment loop of `addManualBones`: for each (bone-name, role) pair
of the table, assign the role to the bone when it exists and skip (only
printing the name) when it does not. -/
def applyBoneTable : List (String × String) → Rig → Rig
  | [], rig => rig
  | (bname, mhx) :: rest, rig =>
    applyBoneTable rest
      (if hasBone rig bname then
        ⟨updateBone rig.bones bname (fun b => { b with McpBone := mhx })⟩
      else rig)

/-- Embeds `CTargetInfo.addManualBones`: clear every bone's role, assign the roles
listed in the table to the bones that exist (skipping missing ones), then
run `addParents`. -/
def CTargetInfo.addManualBones (info : CTargetInfo) (rig : Rig) : Option Rig :=
  info.addParents (applyBoneTable info.bones ⟨rig.bones.map clearRole⟩)

/-- Embeds `CTargetInfo.addAutoBones`: rebuild the info's bone table from the rig's
role-bearing bones (in collection order), then run `addParents`; returns the
updated info together with the updated rig. -/
def CTargetInfo.addAutoBones (info : CTargetInfo) (rig : Rig) :
    Option (CTargetInfo × Rig) :=
  match CTargetInfo.addParents { info with bones := autoBoneList rig } rig with
  | some rig2 => some ({ info with bones := autoBoneList rig }, rig2)
  | none => none

/-!  Specification-shaped view of the parent walk: the chain of successive
ancestors of a bone, and the first role-bearing one on it. -/

/-- The chain of strict ancestors reachable from a parent link, nearest
first, cut off by the fuel bound. -/
def ancestorChain (rig : Rig) : Nat → Option String → List PoseBone
  | _, none => []
  | 0, some _ => []
  | fuel + 1, some pname =>
    match findBone rig pname with
    | none => []
    | some par => par :: ancestorChain rig fuel par.parent

/-- Name of the first role-bearing bone of a list, or "" when there is
none. -/
def firstMappedName (l : List PoseBone) : String :=
  match l.find? (fun a => a.McpBone != "") with
  | some a => a.name
  | none => ""

/-- The nearest mapped strict ancestor of a bone, as the spec words it: walk
up the parent chain until a role-bearing ancestor is found, giving its name,
or the empty string when the root is reached without finding one. -/
def nearestMappedAncestorName (rig : Rig) (pb : PoseBone) : String :=
  firstMappedName (ancestorChain rig rig.bones.length pb.parent)

/-- The fields of a bone that the parent walk reads: name, parent link and
role. -/
def boneCore (pb : PoseBone) : String × Option String × String :=
  (pb.name, pb.parent, pb.McpBone)

/-- First-match lookup in a string-keyed association list, i.e. Python
`d[k]` made partial; association lists standing for `dict`s have distinct
keys, so first match is the match. -/
def tableLookup {α : Type} (ps : List (String × α)) (k : String) : Option α :=
  match ps.find? (fun kv => kv.1 = k) with
  | some kv => some kv.2
  | none => none

/-- The net effect of the override loop on one bone: bones keyed in the
override table get that parent-role, others are unchanged. -/
def overrideAssign (ps : List (String × String)) (b : PoseBone) : PoseBone :=
  match tableLookup ps b.name with
  | some p => { b with McpParent := p }
  | none => b

/-- The net effect of the manual role-assignment loop on one bone of a rig
whose names are distinct: bones keyed in the table get that role, others are
unchanged. -/
def roleAssign (table : List (String × String)) (b : PoseBone) : PoseBone :=
  match tableLookup table b.name with
  | some r => { b with McpBone := r }
  | none => b

/-- The nearest-mapped-ancestor invariant of the spec: every role-bearing
bone's resolved parent-role is the explicit override-table entry for its
name when there is one, and otherwise the nearest mapped strict ancestor
found by walking up the parent chain (the empty string when no mapped
ancestor exists). -/
def parentRoleInvariant (parents : List (String × String)) (rig : Rig) : Prop :=
  ∀ b ∈ rig.bones, b.McpBone ≠ "" →
    b.McpParent = match tableLookup parents b.name with
      | some p => p
      | none => nearestMappedAncestorName rig b

/-!  Rig-kind guessing. -/

/-- Modelled from the spec: the seven rig-kind predicates (`isMhxRig`,
`isMakeHuman`, `isRigify2`, `isRigify`, `isMhx7Rig`, `isGenesis12`,
`isGenesis38`) live in modules outside the given sources; per the spec each
is a named boolean check against the armature's bone-name list.  An armature
is abstracted here by the outcomes of the seven checks on it. -/
structure RigKindChecks where
  isMhxRig : Bool
  isMakeHuman : Bool
  isRigify2 : Bool
  isRigify : Bool
  isMhx7Rig : Bool
  isGenesis12 : Bool
  isGenesis38 : Bool
deriving Repr, DecidableEq

/-- Embeds `guessTargetArmatureFromList` as its if/elif cascade over the
seven predicate outcomes.  (The function also calls `ensureTargetInited`
for its side effect, which does not influence the returned name.) -/
def guessTargetArmatureFromList (c : RigKindChecks) : String :=
  if c.isMhxRig then "MHX"
  else if c.isMakeHuman then "Makehuman"
  else if c.isRigify2 then "Rigify 2"
  else if c.isRigify then "Rigify"
  else if c.isMhx7Rig then "MH-alpha7"
  else if c.isGenesis12 then "Genesis 1,2"
  else if c.isGenesis38 then "Genesis 3,8"
  else "Automatic"

/-- The fixed ordered sequence of (predicate outcome, rig-kind name) pairs
the guesser checks, in source order. -/
def rigKindCheckList (c : RigKindChecks) : List (Bool × String) :=
  [(c.isMhxRig, "MHX"), (c.isMakeHuman, "Makehuman"), (c.isRigify2, "Rigify 2"),
   (c.isRigify, "Rigify"), (c.isMhx7Rig, "MH-alpha7"),
   (c.isGenesis12, "Genesis 1,2"), (c.isGenesis38, "Genesis 3,8")]

/-- Specification-shaped first-match semantics: the rig-kind name paired
with the first predicate that holds, or the fallback sentinel "Automatic"
when none holds. -/
def firstMatchingRigKind (l : List (Bool × String)) : String :=
  match l.find? (fun bs => bs.1) with
  | some bs => bs.2
  | none => "Automatic"

/-!  The manual branch of `getTargetArmature`. -/

/-- Modelled from the spec: `validBone` is defined in the armature module,
outside the given sources; the spec's error handling treats a listed bone as
usable whenever it is present, so validity of an existing bone is modelled
as true. -/
def validBone (pb : PoseBone) : Bool :=
  pb.name = pb.name

/-- Embeds `CTargetInfo.testRig`: scan the mapping table and report (only by
printing) the first listed bone that is missing from the rig or invalid.
The Python method returns `None` on every path and raises nothing, so its
caller observes nothing but the log; the boolean here records whether the
scan found every listed bone (false exactly when the warning is printed). -/
def CTargetInfo.testRig (info : CTargetInfo) (rig : Rig) : Bool :=
  info.bones.all (fun kv =>
    match findBone rig kv.1 with
    | none => false
    | some pb => validBone pb)

/-- The manual branch of `getTargetArmature`: run `testRig` — whose result
the code discards (`if not info.testRig(name, rig): pass`), so a mismatch is
only logged — then apply the table with `addManualBones`. -/
def getTargetArmatureManual (info : CTargetInfo) (rig : Rig) : Option Rig :=
  let _warned := info.testRig rig
  info.addManualBones rig

/-!  The process-wide registry `_targetInfo` and its initialization. -/

/-- The process-wide mapping registry `_targetInfo`: a Python dict keyed by
rig-kind name, modelled as an association list in insertion order. -/
abbrev Registry := List (String × CTargetInfo)

/-- Python dict assignment `d[k] = v`: replace the entry in place when the
key is already present, append a new entry otherwise. -/
def dictInsert (reg : Registry) (k : String) (v : CTargetInfo) : Registry :=
  if reg.any (fun kv => kv.1 = k) then
    reg.map (fun kv => if kv.1 = k then (k, v) else kv)
  else reg ++ [(k, v)]

/-- One entry of the fixed `target_rigs` directory listing: the file name,
whether the path is a regular file, and its parsed JSON content. -/
structure TrgFile where
  fname : String
  isFile : Bool
  struct : JsonStruct
deriving Repr, DecidableEq

/-- One loop iteration of `initTargets`: entries that are not `.json`
regular files are skipped; otherwise the file is read into a fresh
`CTargetInfo` named "Manual" and inserted keyed by the name stored inside
the file (a malformed file raises, aborting the scan). -/
def initTargetsStep (reg : Registry) (f : TrgFile) : Option Registry :=
  if (splitext f.fname).2 = ".json" ∧ f.isFile then
    match (CTargetInfo.mkNew "Manual").readFile f.fname f.struct with
    | some info => some (dictInsert reg info.name info)
    | none => none
  else some reg

/-- Embeds `initTargets`: rebuild the registry as the synthetic "Automatic"
entry followed by one entry per mapping file, scanning the directory in
listing order.  (The `EnumProperty` re-registration that follows only
affects the UI and is not modelled.) -/
def initTargets (dir : List TrgFile) : Option Registry :=
  dir.foldlM initTargetsStep [("Automatic", CTargetInfo.mkNew "Automatic")]

/-- Embeds `isTargetInited`: the registry differs from the empty dict. -/
def isTargetInited (reg : Registry) : Bool :=
  !reg.isEmpty

/-- Embeds `ensureTargetInited`: rescan the mapping-file directory only when
the registry is empty. -/
def ensureTargetInited (dir : List TrgFile) (reg : Registry) : Option Registry :=
  if isTargetInited reg then some reg else initTargets dir

/-- The directory entries `initTargets` treats as mapping files: regular
files whose extension is ".json". -/
def jsonEntries (dir : List TrgFile) : List TrgFile :=
  dir.filter (fun f => decide ((splitext f.fname).2 = ".json" ∧ f.isFile))

/-- The name stored inside a mapping file (the empty string when the "name"
key is absent; a completed `initTargets` run guarantees its presence). -/
def internalName (f : TrgFile) : String :=
  match f.struct.name with
  | some n => n
  | none => ""

/-!  Concrete instances used to exercise the theorems. -/

/-- A synthetic three-level parent chain: role-bearing root, role-less
middle, role-bearing leaf. -/
def chainRig : Rig :=
  ⟨[{ name := "root", parent := none, McpBone := "hips", McpParent := "" },
    { name := "mid", parent := some "root", McpBone := "", McpParent := "" },
    { name := "leaf", parent := some "mid", McpBone := "head", McpParent := "" }]⟩

/-- A mapping table for the chain rig with no parent overrides. -/
def chainInfo : CTargetInfo :=
  { name := "Chain", filepath := "None",
    bones := [("root", "hips"), ("leaf", "head")], parents := [] }

/-- The chain rig after ancestor-role resolution: the leaf's parent-role is
the root. -/
def chainResult : Rig :=
  ⟨[{ name := "root", parent := none, McpBone := "hips", McpParent := "" },
    { name := "mid", parent := some "root", McpBone := "", McpParent := "" },
    { name := "leaf", parent := some "mid", McpBone := "head", McpParent := "root" }]⟩

/-- A mapping table whose explicit override table pins the bone "mid". -/
def overInfo : CTargetInfo :=
  { name := "Over", filepath := "None", bones := [], parents := [("mid", "hips")] }

/-- The chain rig after `overInfo.addParents`: the walk resolves the leaf to
the root, and the override pins "mid" regardless of the walk. -/
def overChainResult : Rig :=
  ⟨[{ name := "root", parent := none, McpBone := "hips", McpParent := "" },
    { name := "mid", parent := some "root", McpBone := "", McpParent := "hips" },
    { name := "leaf", parent := some "mid", McpBone := "head", McpParent := "root" }]⟩

/-- A manual mapping table with a parent override, for the chain rig. -/
def manualInfo : CTargetInfo :=
  { name := "Manual", filepath := "None",
    bones := [("leaf", "head")], parents := [("leaf", "root")] }

/-- The chain rig after `manualInfo.addManualBones`: only the leaf keeps a
role, and its parent-role comes from the override table. -/
def manualChainResult : Rig :=
  ⟨[{ name := "root", parent := none, McpBone := "", McpParent := "" },
    { name := "mid", parent := some "root", McpBone := "", McpParent := "" },
    { name := "leaf", parent := some "mid", McpBone := "head", McpParent := "root" }]⟩

/-- A mapping table listing a bone name ("ghost") that the chain rig does
not have. -/
def ghostInfo : CTargetInfo :=
  { name := "Ghost", filepath := "None",
    bones := [("root", "hips"), ("ghost", "head")], parents := [] }

/-- The chain rig after `ghostInfo.addManualBones`: the present listed bone
got its role, the missing one was skipped. -/
def ghostChainResult : Rig :=
  ⟨[{ name := "root", parent := none, McpBone := "hips", McpParent := "" },
    { name := "mid", parent := some "root", McpBone := "", McpParent := "" },
    { name := "leaf", parent := some "mid", McpBone := "", McpParent := "" }]⟩

/-- A one-file `target_rigs` directory listing. -/
def mhxFile : TrgFile :=
  { fname := "mhx.json", isFile := true,
    struct := { name := some "MHX", url := none,
                bones := some [("hips", "hips")], armature := none,
                parents := none } }

/-- The registry produced by scanning the one-file directory. -/
def mhxRegistry : Registry :=
  [("Automatic", CTargetInfo.mkNew "Automatic"),
   ("MHX", { name := "MHX", filepath := "mhx.json",
             bones := [("hips", "hips")], parents := [] })]

/-- A registry holding only the synthetic entry. -/
def autoRegistry : Registry :=
  [("Automatic", CTargetInfo.mkNew "Automatic")]

/-!  #  Theorems.  -/

/-- C1 (code bug): the save-then-load round trip does not preserve the
mapping table — it does not complete at all.  `saveTargetFile` stores the
(bone-name, role) pairs under the JSON key "armature", while
`CTargetInfo.readFile` looks up the key "bones"; hence reading a file
produced by `saveTargetFile` raises `KeyError` (modelled by `none`) for
every armature, and no `CTargetInfo` is recovered, contradicting the spec's
round-trip property and its "save produces the same file shape" clause. -/
theorem readFile_of_saveTargetStruct_fails (info : CTargetInfo)
    (savepath loadpath : String) (rig : Rig) :
    info.readFile loadpath (saveTargetStruct savepath rig) = none := by
  rfl

/-- Unfolding of `firstMappedName` on a cons cell. -/
theorem firstMappedName_cons (a : PoseBone) (l : List PoseBone) :
    firstMappedName (a :: l) =
      if a.McpBone = "" then firstMappedName l else a.name := by
  by_cases h : a.McpBone = ""
  · have hb : (a.McpBone != "") = false := by simp [h]
    simp [firstMappedName, List.find?, hb, h]
  · have hb : (a.McpBone != "") = true := by simp [h]
    simp [firstMappedName, List.find?, hb, h]


/-- The while-loop walk computes the name of the first role-bearing bone on
the ancestor chain. -/
theorem walkUp_eq_firstMappedName (rig : Rig) (fuel : Nat) :
    ∀ p : Option String,
      walkUp rig fuel p = firstMappedName (ancestorChain rig fuel p) := by
  induction fuel with
  | zero => intro p; cases p <;> rfl
  | succ fuel ih =>
    intro p
    cases p with
    | none => rfl
    | some pname =>
      simp only [walkUp, ancestorChain]
      cases h : findBone rig pname with
      | none => rfl
      | some par =>
        show (if par.McpBone = "" then walkUp rig fuel par.parent else par.name) =
          firstMappedName (par :: ancestorChain rig fuel par.parent)
        rw [firstMappedName_cons]
        by_cases hb : par.McpBone = ""
        · rw [if_pos hb, if_pos hb, ih par.parent]
        · rw [if_neg hb, if_neg hb]

/-- Bone lookup commutes with a name-preserving transformation of the bone
list. -/
theorem findBone_map (rig rig2 : Rig) (g : PoseBone → PoseBone)
    (hbones : rig2.bones = rig.bones.map g)
    (hg : ∀ pb, (g pb).name = pb.name) (n : String) :
    findBone rig2 n = (findBone rig n).map g := by
  have hp : ((fun b : PoseBone => decide (b.name = n)) ∘ g) =
      (fun b : PoseBone => decide (b.name = n)) := by
    funext pb
    simp [Function.comp, hg]
  rw [findBone, findBone, hbones, List.find?_map, hp]

/-- The first mapped ancestor depends only on names, parent links and
roles: a transformation preserving `boneCore` does not change it. -/
theorem firstMapped_chain_congr (rig rig2 : Rig) (g : PoseBone → PoseBone)
    (hbones : rig2.bones = rig.bones.map g)
    (hg : ∀ pb, boneCore (g pb) = boneCore pb) (fuel : Nat) :
    ∀ p : Option String,
      firstMappedName (ancestorChain rig2 fuel p) =
        firstMappedName (ancestorChain rig fuel p) := by
  have hname : ∀ pb, (g pb).name = pb.name :=
    fun pb => congrArg (fun t => t.1) (hg pb)
  have hparent : ∀ pb, (g pb).parent = pb.parent :=
    fun pb => congrArg (fun t => t.2.1) (hg pb)
  have hrole : ∀ pb, (g pb).McpBone = pb.McpBone :=
    fun pb => congrArg (fun t => t.2.2) (hg pb)
  induction fuel with
  | zero => intro p; cases p <;> rfl
  | succ fuel ih =>
    intro p
    cases p with
    | none => rfl
    | some pname =>
      simp only [ancestorChain]
      rw [findBone_map rig rig2 g hbones hname pname]
      cases h : findBone rig pname with
      | none => rfl
      | some par =>
        show firstMappedName (g par :: ancestorChain rig2 fuel (g par).parent) =
          firstMappedName (par :: ancestorChain rig fuel par.parent)
        rw [firstMappedName_cons, firstMappedName_cons, hrole, hname, hparent,
          ih par.parent]

/-- The pass `walkAssign` writes only `McpParent`. -/
theorem boneCore_walkAssign (rig : Rig) (pb : PoseBone) :
    boneCore (walkAssign rig pb) = boneCore pb := by
  rw [walkAssign]
  by_cases h : pb.McpBone = "" <;> simp [h, boneCore]

/-- C2: with no explicit overrides, `addParents` completes and assigns every
role-bearing bone the nearest role-bearing strict ancestor as its
parent-role (found by walking strictly upward through parents), the empty
string when none exists; instantiated by the witness on a three-level chain
in which only root and leaf carry roles, so that the leaf's parent-role is
assigned to the root. -/
theorem addParents_resolvesNearestMappedAncestor (info : CTargetInfo)
    (rig : Rig) (hpar : info.parents = []) :
    ∃ rig2, info.addParents rig = some rig2 ∧
      ∀ b ∈ rig2.bones, b.McpBone ≠ "" →
        b.McpParent = nearestMappedAncestorName rig2 b := by
  refine ⟨⟨rig.bones.map (walkAssign rig)⟩, ?_, ?_⟩
  · simp only [CTargetInfo.addParents, hpar]
    rfl
  · intro b hb hrole
    rcases List.mem_map.mp hb with ⟨a, _, rfl⟩
    have hcore := boneCore_walkAssign rig a
    have hmb : (walkAssign rig a).McpBone = a.McpBone :=
      congrArg (fun t => t.2.2) hcore
    have hpp : (walkAssign rig a).parent = a.parent :=
      congrArg (fun t => t.2.1) hcore
    rw [hmb] at hrole
    have hwa : walkAssign rig a =
        { a with McpParent := walkUp rig rig.bones.length a.parent } := by
      rw [walkAssign, if_neg hrole]
    simp only [nearestMappedAncestorName, hpp, List.length_map]
    rw [firstMapped_chain_congr rig ⟨rig.bones.map (walkAssign rig)⟩
        (walkAssign rig) rfl (boneCore_walkAssign rig),
      ← walkUp_eq_firstMappedName, hwa]

/-- Witness for C2, on the synthetic three-level chain with only root and
leaf roled: the hypothesis holds, and concretely the leaf's parent-role is
assigned to the root. -/
theorem addParents_resolvesNearestMappedAncestor_witness :
    chainInfo.parents = [] ∧
    (∃ rig2, chainInfo.addParents chainRig = some rig2 ∧
      ∀ b ∈ rig2.bones, b.McpBone ≠ "" →
        b.McpParent = nearestMappedAncestorName rig2 b) ∧
    chainInfo.addParents chainRig = some chainResult ∧
    chainResult.bones.map PoseBone.McpParent = ["", "", "root"] :=
  ⟨rfl, addParents_resolvesNearestMappedAncestor chainInfo chainRig rfl,
    by decide, by decide⟩

/-- An update that preserves a projection leaves the projected list
unchanged. -/
theorem updateBone_map_proj {α : Type} (proj : PoseBone → α)
    (l : List PoseBone) (bname : String) (f : PoseBone → PoseBone)
    (hf : ∀ b, proj (f b) = proj b) :
    (updateBone l bname f).map proj = l.map proj := by
  induction l with
  | nil => rfl
  | cons b rest ih =>
    rw [updateBone]
    by_cases h : b.name = bname
    · rw [if_pos h]
      simp [hf]
    · rw [if_neg h]
      simp [ih]

/-- A name-preserving map of the bone list leaves the name list
unchanged. -/
theorem map_name_of_map (rig : Rig) (g : PoseBone → PoseBone)
    (hg : ∀ pb, (g pb).name = pb.name) :
    (rig.bones.map g).map PoseBone.name = rig.bones.map PoseBone.name := by
  rw [List.map_map]
  exact List.map_congr_left (fun a _ => hg a)

/-- Membership of a bone name is determined by the name list. -/
theorem hasBone_true_iff (rig : Rig) (n : String) :
    hasBone rig n = true ↔ n ∈ rig.bones.map PoseBone.name := by
  simp [hasBone, List.any_eq_true, List.mem_map]

/-- Rigs with the same name list agree on bone-name membership. -/
theorem hasBone_congr (rig rig2 : Rig)
    (h : rig2.bones.map PoseBone.name = rig.bones.map PoseBone.name)
    (n : String) : hasBone rig2 n = hasBone rig n := by
  rw [Bool.eq_iff_iff, hasBone_true_iff, hasBone_true_iff, h]

/-- The override loop raises `KeyError` exactly when some listed bone name
is missing from the rig. -/
theorem applyOverrides_eq_none_iff (ps : List (String × String)) :
    ∀ rig : Rig, applyOverrides ps rig = none ↔
      ∃ kv ∈ ps, hasBone rig kv.1 = false := by
  induction ps with
  | nil =>
    intro rig
    simp [applyOverrides]
  | cons kv ps ih =>
    intro rig
    rcases kv with ⟨bname, pname⟩
    rw [applyOverrides]
    by_cases h : hasBone rig bname = true
    · rw [if_pos h, ih]
      have hcong : ∀ k, hasBone (Rig.mk (updateBone rig.bones bname
          (fun b => { b with McpParent := pname }))) k = hasBone rig k := by
        intro k
        exact hasBone_congr rig
          ⟨updateBone rig.bones bname (fun b => { b with McpParent := pname })⟩
          (updateBone_map_proj PoseBone.name rig.bones bname
            (fun b => { b with McpParent := pname }) (fun b => rfl)) k
      simp only [hcong]
      constructor
      · rintro ⟨kv2, h2, hf⟩
        exact ⟨kv2, List.mem_cons_of_mem _ h2, hf⟩
      · rintro ⟨kv2, h2, hf⟩
        rcases List.mem_cons.mp h2 with h3 | h3
        · rw [h3] at hf
          rw [hf] at h
          exact absurd h (by simp)
        · exact ⟨kv2, h3, hf⟩
    · rw [if_neg h]
      have hfalse : hasBone rig bname = false := by
        simpa using h
      constructor
      · intro _
        exact ⟨(bname, pname), List.mem_cons_self _ _, hfalse⟩
      · intro _
        rfl

/-- C9: `addParents` fails with an unhandled `KeyError` exactly when the
parents override table lists a bone name absent from the armature; in
particular, when every override key names an existing bone the operation
completes without error. -/
theorem addParents_keyError_iff (info : CTargetInfo) (rig : Rig) :
    info.addParents rig = none ↔
      ∃ kv ∈ info.parents, hasBone rig kv.1 = false := by
  have hname : ∀ pb, (walkAssign rig pb).name = pb.name :=
    fun pb => congrArg (fun t => t.1) (boneCore_walkAssign rig pb)
  have hcong : ∀ k, hasBone ⟨rig.bones.map (walkAssign rig)⟩ k = hasBone rig k :=
    fun k => hasBone_congr rig _ (map_name_of_map rig _ hname) k
  rw [CTargetInfo.addParents, applyOverrides_eq_none_iff]
  simp only [hcong]

/-- Unfolding of `tableLookup` on a cons cell. -/
theorem tableLookup_cons {α : Type} (k : String) (v : α)
    (ps : List (String × α)) (n : String) :
    tableLookup ((k, v) :: ps) n = if k = n then some v else tableLookup ps n := by
  by_cases h : k = n
  · simp [tableLookup, List.find?, h]
  · simp [tableLookup, List.find?, h]

/-- Lookup misses exactly the keys that are not listed. -/
theorem tableLookup_eq_none_iff {α : Type} :
    ∀ (ps : List (String × α)) (n : String),
      tableLookup ps n = none ↔ n ∉ ps.map Prod.fst := by
  intro ps
  induction ps with
  | nil =>
    intro n
    simp [tableLookup, List.find?]
  | cons kv ps ih =>
    intro n
    rcases kv with ⟨k, v⟩
    rw [tableLookup_cons]
    by_cases h : k = n
    · simp [h]
    · rw [if_neg h, ih]
      simp only [List.map_cons, List.mem_cons]
      constructor
      · intro hn hx
        rcases hx with e | e
        · exact h e.symm
        · exact hn e
      · intro hn hx
        exact hn (Or.inr hx)

/-- A lookup hit returns a listed pair. -/
theorem tableLookup_eq_some_mem {α : Type} :
    ∀ (ps : List (String × α)) (n : String) (v : α),
      tableLookup ps n = some v → (n, v) ∈ ps := by
  intro ps
  induction ps with
  | nil =>
    intro n v h
    simp [tableLookup, List.find?] at h
  | cons kv ps ih =>
    intro n v h
    rcases kv with ⟨k, w⟩
    rw [tableLookup_cons] at h
    by_cases hk : k = n
    · rw [if_pos hk] at h
      injection h with hw
      rw [← hk, ← hw]
      exact List.mem_cons_self _ _
    · rw [if_neg hk] at h
      exact List.mem_cons_of_mem _ (ih n v h)

/-- With distinct keys, looking up a listed pair's key hits that pair. -/
theorem tableLookup_of_mem_nodup {α : Type} :
    ∀ (ps : List (String × α)) (n : String) (v : α),
      (ps.map Prod.fst).Nodup → (n, v) ∈ ps → tableLookup ps n = some v := by
  intro ps
  induction ps with
  | nil =>
    intro n v _ hmem
    cases hmem
  | cons kv ps ih =>
    intro n v hk hmem
    rcases kv with ⟨k, w⟩
    rw [List.map_cons, List.nodup_cons] at hk
    rw [tableLookup_cons]
    rcases List.mem_cons.mp hmem with h1 | h1
    · cases h1
      rw [if_pos rfl]
    · have hne : k ≠ n := by
        intro e
        rw [e] at hk
        have hin := List.mem_map_of_mem Prod.fst h1
        exact hk.1 hin
      rw [if_neg hne]
      exact ih n v hk.2 h1

/-- Unfolding `overrideAssign` on a lookup miss. -/
theorem overrideAssign_of_lookup_none (ps : List (String × String))
    (b : PoseBone) (h : tableLookup ps b.name = none) :
    overrideAssign ps b = b := by
  rw [overrideAssign, h]

/-- Unfolding `overrideAssign` on a lookup hit. -/
theorem overrideAssign_of_lookup_some (ps : List (String × String))
    (b : PoseBone) (p : String) (h : tableLookup ps b.name = some p) :
    overrideAssign ps b = { b with McpParent := p } := by
  rw [overrideAssign, h]

/-- The override loop writes only `McpParent`. -/
theorem boneCore_overrideAssign (ps : List (String × String)) (b : PoseBone) :
    boneCore (overrideAssign ps b) = boneCore b := by
  rw [overrideAssign]
  cases tableLookup ps b.name <;> rfl

/-- Unfolding `roleAssign` on a lookup miss. -/
theorem roleAssign_of_lookup_none (t : List (String × String))
    (b : PoseBone) (h : tableLookup t b.name = none) :
    roleAssign t b = b := by
  rw [roleAssign, h]

/-- Unfolding `roleAssign` on a lookup hit. -/
theorem roleAssign_of_lookup_some (t : List (String × String))
    (b : PoseBone) (r : String) (h : tableLookup t b.name = some r) :
    roleAssign t b = { b with McpBone := r } := by
  rw [roleAssign, h]

/-- The role-assignment loop preserves bone names. -/
theorem roleAssign_name (t : List (String × String)) (b : PoseBone) :
    (roleAssign t b).name = b.name := by
  rw [roleAssign]
  cases tableLookup t b.name <;> rfl

/-- With distinct bone names, the in-place update is a pointwise map. -/
theorem updateBone_eq_map :
    ∀ (l : List PoseBone) (bname : String) (f : PoseBone → PoseBone),
      (∀ b, (f b).name = b.name) → (l.map PoseBone.name).Nodup →
      updateBone l bname f = l.map (fun b => if b.name = bname then f b else b) := by
  intro l
  induction l with
  | nil =>
    intro bname f _ _
    rfl
  | cons b rest ih =>
    intro bname f hf hn
    rw [List.map_cons, List.nodup_cons] at hn
    rw [updateBone, List.map_cons]
    by_cases h : b.name = bname
    · rw [if_pos h, if_pos h]
      have he : ∀ x ∈ rest, (if x.name = bname then f x else x) = id x := by
        intro x hx
        rw [if_neg, id]
        intro e
        apply hn.1
        rw [h, ← e]
        exact List.mem_map_of_mem PoseBone.name hx
      rw [List.map_congr_left he, List.map_id]
    · rw [if_neg h, if_neg h, ih bname f hf hn.2]

/-- For distinct bone names and distinct override keys, the override loop
acts as the pointwise `overrideAssign` map. -/
theorem applyOverrides_some_eq :
    ∀ (ps : List (String × String)) (rig rig2 : Rig),
      (rig.bones.map PoseBone.name).Nodup → (ps.map Prod.fst).Nodup →
      applyOverrides ps rig = some rig2 →
      rig2.bones = rig.bones.map (overrideAssign ps) := by
  intro ps
  induction ps with
  | nil =>
    intro rig rig2 _ _ h
    injection h with h2
    rw [← h2]
    have he : ∀ a ∈ rig.bones, overrideAssign [] a = id a := fun a _ => rfl
    rw [List.map_congr_left he, List.map_id]
  | cons kv ps ih =>
    intro rig rig2 hn hk h
    rcases kv with ⟨k, v⟩
    rw [applyOverrides] at h
    rw [List.map_cons, List.nodup_cons] at hk
    by_cases hb : hasBone rig k = true
    · rw [if_pos hb] at h
      have hUbones : (updateBone rig.bones k
          (fun b => { b with McpParent := v })).map PoseBone.name
          = rig.bones.map PoseBone.name :=
        updateBone_map_proj PoseBone.name rig.bones k _ (fun b => rfl)
      have hUn : ((updateBone rig.bones k
          (fun b => { b with McpParent := v })).map PoseBone.name).Nodup := by
        rw [hUbones]
        exact hn
      have hmain := ih ⟨updateBone rig.bones k
        (fun b => { b with McpParent := v })⟩ rig2 hUn hk.2 h
      have hU2 : updateBone rig.bones k (fun b => { b with McpParent := v })
          = rig.bones.map (fun b => if b.name = k
              then { b with McpParent := v } else b) :=
        updateBone_eq_map rig.bones k _ (fun b => rfl) hn
      rw [hmain]
      show (updateBone rig.bones k (fun b => { b with McpParent := v })).map
        (overrideAssign ps) = _
      rw [hU2, List.map_map]
      apply List.map_congr_left
      intro a _
      simp only [Function.comp]
      by_cases ha : a.name = k
      · have h1 : tableLookup ps ({ a with McpParent := v } : PoseBone).name
            = none := by
          show tableLookup ps a.name = none
          rw [ha]
          exact (tableLookup_eq_none_iff ps k).mpr hk.1
        have h2 : tableLookup ((k, v) :: ps) a.name = some v := by
          rw [tableLookup_cons, if_pos ha.symm]
        rw [if_pos ha, overrideAssign_of_lookup_none ps _ h1,
          overrideAssign_of_lookup_some ((k, v) :: ps) a v h2]
      · have h2 : tableLookup ((k, v) :: ps) a.name = tableLookup ps a.name := by
          rw [tableLookup_cons, if_neg (fun e => ha e.symm)]
        rw [if_neg ha, overrideAssign, overrideAssign, h2]
    · rw [if_neg hb] at h
      exact absurd h (by simp)

/-- The manual role-assignment loop preserves the name list. -/
theorem applyBoneTable_map_name :
    ∀ (table : List (String × String)) (rig : Rig),
      (applyBoneTable table rig).bones.map PoseBone.name
        = rig.bones.map PoseBone.name := by
  intro table
  induction table with
  | nil =>
    intro rig
    rfl
  | cons kv t ih =>
    intro rig
    rcases kv with ⟨k, v⟩
    rw [applyBoneTable]
    by_cases hb : hasBone rig k = true
    · rw [if_pos hb, ih]
      exact updateBone_map_proj PoseBone.name rig.bones k _ (fun b => rfl)
    · rw [if_neg hb, ih]

/-- For distinct bone names and distinct table keys, the manual
role-assignment loop acts as the pointwise `roleAssign` map. -/
theorem applyBoneTable_eq_map :
    ∀ (table : List (String × String)) (rig : Rig),
      (rig.bones.map PoseBone.name).Nodup → (table.map Prod.fst).Nodup →
      (applyBoneTable table rig).bones = rig.bones.map (roleAssign table) := by
  intro table
  induction table with
  | nil =>
    intro rig _ _
    have he : ∀ a ∈ rig.bones, roleAssign [] a = id a := fun a _ => rfl
    rw [applyBoneTable, List.map_congr_left he, List.map_id]
  | cons kv t ih =>
    intro rig hn hk
    rcases kv with ⟨k, v⟩
    rw [List.map_cons, List.nodup_cons] at hk
    rw [applyBoneTable]
    by_cases hb : hasBone rig k = true
    · rw [if_pos hb]
      have hUbones : (updateBone rig.bones k
          (fun b => { b with McpBone := v })).map PoseBone.name
          = rig.bones.map PoseBone.name :=
        updateBone_map_proj PoseBone.name rig.bones k _ (fun b => rfl)
      have hUn : ((updateBone rig.bones k
          (fun b => { b with McpBone := v })).map PoseBone.name).Nodup := by
        rw [hUbones]
        exact hn
      rw [ih ⟨updateBone rig.bones k (fun b => { b with McpBone := v })⟩ hUn hk.2]
      show (updateBone rig.bones k (fun b => { b with McpBone := v })).map
        (roleAssign t) = _
      rw [updateBone_eq_map rig.bones k (fun b => { b with McpBone := v })
        (fun b => rfl) hn, List.map_map]
      apply List.map_congr_left
      intro a _
      simp only [Function.comp]
      by_cases ha : a.name = k
      · have h1 : tableLookup t ({ a with McpBone := v } : PoseBone).name
            = none := by
          show tableLookup t a.name = none
          rw [ha]
          exact (tableLookup_eq_none_iff t k).mpr hk.1
        have h2 : tableLookup ((k, v) :: t) a.name = some v := by
          rw [tableLookup_cons, if_pos ha.symm]
        rw [if_pos ha, roleAssign_of_lookup_none t _ h1,
          roleAssign_of_lookup_some ((k, v) :: t) a v h2]
      · have h2 : tableLookup ((k, v) :: t) a.name = tableLookup t a.name := by
          rw [tableLookup_cons, if_neg (fun e => ha e.symm)]
        rw [if_neg ha, roleAssign, roleAssign, h2]
    · rw [if_neg hb, ih rig hn hk.2]
      apply List.map_congr_left
      intro a ha
      have hank : a.name ≠ k := by
        intro e
        have : hasBone rig k = true := by
          rw [hasBone_true_iff, ← e]
          exact List.mem_map_of_mem PoseBone.name ha
        exact hb this
      have h2 : tableLookup ((k, v) :: t) a.name = tableLookup t a.name := by
        rw [tableLookup_cons, if_neg (fun e => hank e.symm)]
      rw [roleAssign, roleAssign, h2]

/-- For distinct bone names and distinct override keys, a completed
`addParents` run is exactly the walk map followed by the override map. -/
theorem addParents_some_eq (info : CTargetInfo) (rig rig2 : Rig)
    (hn : (rig.bones.map PoseBone.name).Nodup)
    (hk : (info.parents.map Prod.fst).Nodup)
    (h : info.addParents rig = some rig2) :
    rig2.bones = (rig.bones.map (walkAssign rig)).map
      (overrideAssign info.parents) := by
  rw [CTargetInfo.addParents] at h
  have hname : ∀ pb, (walkAssign rig pb).name = pb.name :=
    fun pb => congrArg (fun t => t.1) (boneCore_walkAssign rig pb)
  have hwn : ((rig.bones.map (walkAssign rig)).map PoseBone.name).Nodup := by
    rw [map_name_of_map rig (walkAssign rig) hname]
    exact hn
  exact applyOverrides_some_eq info.parents ⟨rig.bones.map (walkAssign rig)⟩
    rig2 hwn hk h

/-- C3: every bone name listed in the explicit parents override table ends
`addParents` with exactly the override table's value as its parent-role,
regardless of what the ancestor walk computed for it. -/
theorem addParents_explicitOverrideWins (info : CTargetInfo) (rig rig2 : Rig)
    (bname pname : String)
    (hn : (rig.bones.map PoseBone.name).Nodup)
    (hk : (info.parents.map Prod.fst).Nodup)
    (hmem : (bname, pname) ∈ info.parents)
    (h : info.addParents rig = some rig2) :
    ∀ b ∈ rig2.bones, b.name = bname → b.McpParent = pname := by
  intro b hb hbn
  rw [addParents_some_eq info rig rig2 hn hk h] at hb
  rcases List.mem_map.mp hb with ⟨a1, _, rfl⟩
  have hname1 : (overrideAssign info.parents a1).name = a1.name :=
    congrArg (fun t => t.1) (boneCore_overrideAssign info.parents a1)
  rw [hname1] at hbn
  have hlook : tableLookup info.parents a1.name = some pname := by
    rw [hbn]
    exact tableLookup_of_mem_nodup info.parents bname pname hk hmem
  rw [overrideAssign_of_lookup_some info.parents a1 pname hlook]

/-- Witness for C3: on the chain rig, the override table pins "mid" to
"hips" even though the ancestor walk never assigns anything to the role-less
"mid". -/
theorem addParents_explicitOverrideWins_witness :
    ((chainRig.bones.map PoseBone.name).Nodup ∧
      (overInfo.parents.map Prod.fst).Nodup ∧
      ("mid", "hips") ∈ overInfo.parents ∧
      overInfo.addParents chainRig = some overChainResult) ∧
    ∀ b ∈ overChainResult.bones, b.name = "mid" → b.McpParent = "hips" :=
  ⟨⟨by decide, by decide, by decide, by decide⟩,
    addParents_explicitOverrideWins overInfo chainRig overChainResult
      "mid" "hips" (by decide) (by decide) (by decide) (by decide)⟩

/-- A completed `addParents` run establishes the nearest-mapped-ancestor
invariant on its output. -/
theorem addParents_establishesInvariant (info : CTargetInfo) (rig rig2 : Rig)
    (hn : (rig.bones.map PoseBone.name).Nodup)
    (hk : (info.parents.map Prod.fst).Nodup)
    (h : info.addParents rig = some rig2) :
    parentRoleInvariant info.parents rig2 := by
  have hchar := addParents_some_eq info rig rig2 hn hk h
  have hbones2 : rig2.bones = rig.bones.map
      (overrideAssign info.parents ∘ walkAssign rig) := by
    rw [hchar, List.map_map]
  have hcoreG : ∀ pb, boneCore ((overrideAssign info.parents ∘ walkAssign rig) pb)
      = boneCore pb := by
    intro pb
    simp only [Function.comp]
    rw [boneCore_overrideAssign, boneCore_walkAssign]
  intro b hb hrole
  rw [hchar] at hb
  rcases List.mem_map.mp hb with ⟨a1, ha1, rfl⟩
  rcases List.mem_map.mp ha1 with ⟨a, _, rfl⟩
  have hcoreW := boneCore_walkAssign rig a
  have hcore : boneCore (overrideAssign info.parents (walkAssign rig a))
      = boneCore a := by
    rw [boneCore_overrideAssign, hcoreW]
  have hname1 : (overrideAssign info.parents (walkAssign rig a)).name = a.name :=
    congrArg (fun t => t.1) hcore
  have hrole1 : (overrideAssign info.parents (walkAssign rig a)).McpBone
      = a.McpBone := congrArg (fun t => t.2.2) hcore
  have hwname : (walkAssign rig a).name = a.name :=
    congrArg (fun t => t.1) hcoreW
  rw [hrole1] at hrole
  have hwa : walkAssign rig a =
      { a with McpParent := walkUp rig rig.bones.length a.parent } := by
    rw [walkAssign, if_neg hrole]
  rw [hname1]
  cases hl : tableLookup info.parents a.name with
  | some p =>
    have hlook : tableLookup info.parents (walkAssign rig a).name = some p := by
      rw [hwname]
      exact hl
    show (overrideAssign info.parents (walkAssign rig a)).McpParent = p
    rw [overrideAssign_of_lookup_some info.parents _ p hlook]
  | none =>
    have hlook : tableLookup info.parents (walkAssign rig a).name = none := by
      rw [hwname]
      exact hl
    show (overrideAssign info.parents (walkAssign rig a)).McpParent =
      nearestMappedAncestorName rig2
        (overrideAssign info.parents (walkAssign rig a))
    rw [overrideAssign_of_lookup_none info.parents _ hlook, hwa]
    simp only [nearestMappedAncestorName, hbones2, List.length_map]
    rw [firstMapped_chain_congr rig rig2
        (overrideAssign info.parents ∘ walkAssign rig) hbones2 hcoreG,
      ← walkUp_eq_firstMappedName]

/-- C5: both mapping operations keep the invariant — after a completed
`addAutoBones` or `addManualBones`, every bone with a non-empty role has its
parent-role resolved by walking up the parent chain to the nearest mapped
ancestor (the empty string when none exists), unless an explicit override
table entry for its name takes precedence. -/
theorem mappingOps_parentRoleInvariant :
    (∀ (info : CTargetInfo) (rig : Rig) (info2 : CTargetInfo) (rig2 : Rig),
      (rig.bones.map PoseBone.name).Nodup →
      (info.parents.map Prod.fst).Nodup →
      info.addAutoBones rig = some (info2, rig2) →
      parentRoleInvariant info2.parents rig2) ∧
    (∀ (info : CTargetInfo) (rig rig2 : Rig),
      (rig.bones.map PoseBone.name).Nodup →
      (info.parents.map Prod.fst).Nodup →
      info.addManualBones rig = some rig2 →
      parentRoleInvariant info.parents rig2) := by
  constructor
  · intro info rig info2 rig2 hn hk h
    rw [CTargetInfo.addAutoBones] at h
    cases hap : CTargetInfo.addParents { info with bones := autoBoneList rig }
        rig with
    | none =>
      rw [hap] at h
      exact absurd h (by simp)
    | some r =>
      rw [hap] at h
      have h2 : ({ info with bones := autoBoneList rig }, r) = (info2, rig2) := by
        injection h
      rw [Prod.mk.injEq] at h2
      obtain ⟨e1, e2⟩ := h2
      subst e1
      subst e2
      exact addParents_establishesInvariant _ rig _ hn hk hap
  · intro info rig rig2 hn hk h
    rw [CTargetInfo.addManualBones] at h
    have hcn : ((applyBoneTable info.bones ⟨rig.bones.map clearRole⟩).bones.map
        PoseBone.name).Nodup := by
      rw [applyBoneTable_map_name]
      show ((rig.bones.map clearRole).map PoseBone.name).Nodup
      rw [map_name_of_map rig clearRole (fun pb => rfl)]
      exact hn
    exact addParents_establishesInvariant info _ rig2 hcn hk h

/-- Witness for C5, through the manual operation on the chain rig: the
hypotheses hold concretely and the invariant follows. -/
theorem mappingOps_parentRoleInvariant_witness :
    ((chainRig.bones.map PoseBone.name).Nodup ∧
      (manualInfo.parents.map Prod.fst).Nodup ∧
      manualInfo.addManualBones chainRig = some manualChainResult) ∧
    parentRoleInvariant manualInfo.parents manualChainResult :=
  ⟨⟨by decide, by decide, by decide⟩,
    mappingOps_parentRoleInvariant.2 manualInfo chainRig manualChainResult
      (by decide) (by decide) (by decide)⟩

/-- C4: the rig-kind guesser equals first-match semantics over the fixed
ordered predicate sequence (isMhxRig, isMakeHuman, isRigify2, isRigify,
isMhx7Rig, isGenesis12, isGenesis38), falling back to the sentinel
"Automatic" when no predicate holds. -/
theorem guessTargetArmature_firstMatch (c : RigKindChecks) :
    guessTargetArmatureFromList c = firstMatchingRigKind (rigKindCheckList c) := by
  rcases c with ⟨b1, b2, b3, b4, b5, b6, b7⟩
  cases b1 <;> cases b2 <;> cases b3 <;> cases b4 <;> cases b5 <;> cases b6 <;>
    cases b7 <;> rfl

/-- The override loop leaves any `McpParent`-insensitive projection of the
bone list unchanged. -/
theorem applyOverrides_map_proj {α : Type} (proj : PoseBone → α)
    (hproj : ∀ b p, proj { b with McpParent := p } = proj b) :
    ∀ (ps : List (String × String)) (rig rig2 : Rig),
      applyOverrides ps rig = some rig2 →
      rig2.bones.map proj = rig.bones.map proj := by
  intro ps
  induction ps with
  | nil =>
    intro rig rig2 h
    injection h with h2
    rw [h2]
  | cons kv ps ih =>
    intro rig rig2 h
    rcases kv with ⟨k, v⟩
    rw [applyOverrides] at h
    by_cases hb : hasBone rig k = true
    · rw [if_pos hb] at h
      rw [ih _ rig2 h]
      exact updateBone_map_proj proj rig.bones k _ (fun b => hproj b v)
    · rw [if_neg hb] at h
      exact absurd h (by simp)

/-- A completed `addParents` leaves any `McpParent`-insensitive projection
of the bone list unchanged. -/
theorem addParents_map_proj {α : Type} (proj : PoseBone → α)
    (hproj : ∀ b p, proj { b with McpParent := p } = proj b)
    (info : CTargetInfo) (rig rig2 : Rig)
    (h : info.addParents rig = some rig2) :
    rig2.bones.map proj = rig.bones.map proj := by
  rw [CTargetInfo.addParents] at h
  rw [applyOverrides_map_proj proj hproj info.parents _ rig2 h]
  show (rig.bones.map (walkAssign rig)).map proj = _
  rw [List.map_map]
  apply List.map_congr_left
  intro a _
  simp only [Function.comp]
  rw [walkAssign]
  by_cases hm : a.McpBone = ""
  · rw [if_pos hm]
  · rw [if_neg hm, hproj]

/-- After a completed `addManualBones` run (with distinct bone names and
distinct table keys), each bone's role is exactly the table entry for its
name, with the empty role when its name is unlisted, and the rig's name
list is unchanged. -/
theorem addManualBones_roles (info : CTargetInfo) (rig rig2 : Rig)
    (hn : (rig.bones.map PoseBone.name).Nodup)
    (hk : (info.bones.map Prod.fst).Nodup)
    (h : info.addManualBones rig = some rig2) :
    rig2.bones.map PoseBone.name = rig.bones.map PoseBone.name ∧
    ∀ b ∈ rig2.bones,
      b.McpBone = (tableLookup info.bones b.name).getD "" := by
  rw [CTargetInfo.addManualBones] at h
  have hCnames : ((⟨rig.bones.map clearRole⟩ : Rig).bones.map PoseBone.name)
      = rig.bones.map PoseBone.name := by
    show (rig.bones.map clearRole).map PoseBone.name = _
    rw [map_name_of_map rig clearRole (fun pb => rfl)]
  have hCn : ((⟨rig.bones.map clearRole⟩ : Rig).bones.map PoseBone.name).Nodup := by
    rw [hCnames]
    exact hn
  have hA : (applyBoneTable info.bones ⟨rig.bones.map clearRole⟩).bones
      = (rig.bones.map clearRole).map (roleAssign info.bones) :=
    applyBoneTable_eq_map info.bones ⟨rig.bones.map clearRole⟩ hCn hk
  constructor
  · rw [addParents_map_proj PoseBone.name (fun b p => rfl) info _ rig2 h,
      applyBoneTable_map_name, hCnames]
  · have hpair := addParents_map_proj (fun x => (x.name, x.McpBone))
      (fun b p => rfl) info _ rig2 h
    intro b hb
    have hmem : (b.name, b.McpBone) ∈ rig2.bones.map (fun x => (x.name, x.McpBone)) :=
      List.mem_map_of_mem _ hb
    rw [hpair] at hmem
    rw [show (applyBoneTable info.bones ⟨rig.bones.map clearRole⟩).bones.map
        (fun x => (x.name, x.McpBone))
        = ((rig.bones.map clearRole).map (roleAssign info.bones)).map
          (fun x => (x.name, x.McpBone)) from by rw [hA]] at hmem
    rw [List.map_map, List.map_map] at hmem
    rcases List.mem_map.mp hmem with ⟨a, _, he⟩
    simp only [Function.comp] at he
    cases hl : tableLookup info.bones a.name with
    | some r =>
      have hra : roleAssign info.bones (clearRole a) = { clearRole a with McpBone := r } := by
        apply roleAssign_of_lookup_some
        show tableLookup info.bones a.name = some r
        exact hl
      rw [hra] at he
      have h1 : a.name = b.name := congrArg Prod.fst he
      have h2 : r = b.McpBone := congrArg Prod.snd he
      rw [← h1, hl]
      exact h2.symm
    | none =>
      have hra : roleAssign info.bones (clearRole a) = clearRole a := by
        apply roleAssign_of_lookup_none
        show tableLookup info.bones a.name = none
        exact hl
      rw [hra] at he
      have h1 : a.name = b.name := congrArg Prod.fst he
      have h2 : ("" : String) = b.McpBone := congrArg Prod.snd he
      rw [← h1, hl]
      exact h2.symm

/-- C8: `addManualBones` first clears every bone's role, so afterwards a
bone carries a non-empty role r exactly when the mapping table lists its
name with role r, and every bone whose name is unlisted ends with the empty
role, whatever it carried before. -/
theorem addManualBones_rolesMatchTable (info : CTargetInfo) (rig rig2 : Rig)
    (hn : (rig.bones.map PoseBone.name).Nodup)
    (hk : (info.bones.map Prod.fst).Nodup)
    (h : info.addManualBones rig = some rig2) :
    rig2.bones.map PoseBone.name = rig.bones.map PoseBone.name ∧
    ∀ b ∈ rig2.bones,
      (∀ r, r ≠ "" → (b.McpBone = r ↔ (b.name, r) ∈ info.bones)) ∧
      ((∀ r, (b.name, r) ∉ info.bones) → b.McpBone = "") := by
  obtain ⟨hnames, hroles⟩ := addManualBones_roles info rig rig2 hn hk h
  refine ⟨hnames, ?_⟩
  intro b hb
  have hr := hroles b hb
  constructor
  · intro r hrne
    constructor
    · intro he
      rw [he] at hr
      cases hl : tableLookup info.bones b.name with
      | none =>
        rw [hl] at hr
        exact absurd hr hrne
      | some v =>
        rw [hl] at hr
        have hrv : r = v := hr
        rw [hrv]
        exact tableLookup_eq_some_mem info.bones b.name v hl
    · intro hmem
      rw [hr, tableLookup_of_mem_nodup info.bones b.name r hk hmem]
      rfl
  · intro hnone
    have hl : tableLookup info.bones b.name = none := by
      cases hl2 : tableLookup info.bones b.name with
      | none => rfl
      | some v => exact absurd (tableLookup_eq_some_mem _ _ _ hl2) (hnone v)
    rw [hr, hl]
    rfl

/-- Witness for C8: on the chain rig under the table of `ghostInfo`, each
bone's final role matches the table, and unlisted bones (including the leaf,
which carried "head" before) end empty. -/
theorem addManualBones_rolesMatchTable_witness :
    ((chainRig.bones.map PoseBone.name).Nodup ∧
      (ghostInfo.bones.map Prod.fst).Nodup ∧
      ghostInfo.addManualBones chainRig = some ghostChainResult) ∧
    (ghostChainResult.bones.map PoseBone.name
      = chainRig.bones.map PoseBone.name ∧
    ∀ b ∈ ghostChainResult.bones,
      (∀ r, r ≠ "" → (b.McpBone = r ↔ (b.name, r) ∈ ghostInfo.bones)) ∧
      ((∀ r, (b.name, r) ∉ ghostInfo.bones) → b.McpBone = "")) :=
  ⟨⟨by decide, by decide, by decide⟩,
    addManualBones_rolesMatchTable ghostInfo chainRig ghostChainResult
      (by decide) (by decide) (by decide)⟩

/-- C6: when some bone names of the selected mapping table are missing from
the target armature (and the override keys all exist), the manual path of
`getTargetArmature` does not raise: `testRig` only logs, `addManualBones`
assigns the listed role to every listed bone that is present and skips the
missing ones, and processing continues with the resolved roles. -/
theorem getTargetArmatureManual_partialMismatch (info : CTargetInfo)
    (rig : Rig)
    (hn : (rig.bones.map PoseBone.name).Nodup)
    (hk : (info.bones.map Prod.fst).Nodup)
    (hpar : ∀ kv ∈ info.parents, hasBone rig kv.1 = true)
    (hmiss : ∃ kv ∈ info.bones, hasBone rig kv.1 = false) :
    ∃ rig2, getTargetArmatureManual info rig = some rig2 ∧
      rig2.bones.map PoseBone.name = rig.bones.map PoseBone.name ∧
      ∀ b ∈ rig2.bones,
        b.McpBone = (tableLookup info.bones b.name).getD "" := by
  rcases hmiss with ⟨-, -, -⟩
  cases hres : info.addManualBones rig with
  | none =>
    exfalso
    rw [CTargetInfo.addManualBones, addParents_keyError_iff] at hres
    rcases hres with ⟨kv, hkv, hfb⟩
    have hAnames : (applyBoneTable info.bones
        ⟨rig.bones.map clearRole⟩).bones.map PoseBone.name
        = rig.bones.map PoseBone.name := by
      rw [applyBoneTable_map_name]
      show (rig.bones.map clearRole).map PoseBone.name = _
      rw [map_name_of_map rig clearRole (fun pb => rfl)]
    rw [hasBone_congr rig _ hAnames kv.1] at hfb
    rw [hpar kv hkv] at hfb
    exact absurd hfb (by simp)
  | some rig2 =>
    obtain ⟨h1, h2⟩ := addManualBones_roles info rig rig2 hn hk hres
    exact ⟨rig2, hres, h1, h2⟩

/-- Witness for C6: `ghostInfo` lists the missing bone "ghost"; the manual
path still completes on the chain rig, assigning "hips" to the present
"root" and skipping "ghost". -/
theorem getTargetArmatureManual_partialMismatch_witness :
    ((chainRig.bones.map PoseBone.name).Nodup ∧
      (ghostInfo.bones.map Prod.fst).Nodup ∧
      (∀ kv ∈ ghostInfo.parents, hasBone chainRig kv.1 = true) ∧
      (∃ kv ∈ ghostInfo.bones, hasBone chainRig kv.1 = false)) ∧
    (∃ rig2, getTargetArmatureManual ghostInfo chainRig = some rig2 ∧
      rig2.bones.map PoseBone.name = chainRig.bones.map PoseBone.name ∧
      ∀ b ∈ rig2.bones,
        b.McpBone = (tableLookup ghostInfo.bones b.name).getD "") :=
  ⟨⟨by decide, by decide, by decide, by decide⟩,
    getTargetArmatureManual_partialMismatch ghostInfo chainRig
      (by decide) (by decide) (by decide) (by decide)⟩

/-- A successful read records the file's internal name. -/
theorem readFile_name (info0 : CTargetInfo) (fp : String) (st : JsonStruct)
    (info : CTargetInfo) (h : info0.readFile fp st = some info) :
    st.name = some info.name := by
  rw [CTargetInfo.readFile] at h
  cases hn : st.name with
  | none =>
    rw [hn] at h
    simp at h
  | some n =>
    cases hb : st.bones with
    | none =>
      rw [hn, hb] at h
      simp at h
    | some bs =>
      rw [hn, hb] at h
      injection h with h2
      rw [← h2]

/-- Inserting a fresh key appends the entry. -/
theorem dictInsert_fresh (reg : Registry) (k : String) (v : CTargetInfo)
    (h : k ∉ reg.map Prod.fst) : dictInsert reg k v = reg ++ [(k, v)] := by
  rw [dictInsert, if_neg]
  intro hc
  simp only [List.any_eq_true, decide_eq_true_eq] at hc
  rcases hc with ⟨kv, hkv, he⟩
  apply h
  rw [← he]
  exact List.mem_map_of_mem Prod.fst hkv

/-- Lookup in an appended list resolves in the left part when the key is
there. -/
theorem tableLookup_append_left {α : Type} (l1 l2 : List (String × α))
    (k : String) (h : k ∈ l1.map Prod.fst) :
    tableLookup (l1 ++ l2) k = tableLookup l1 k := by
  rw [tableLookup, tableLookup, List.find?_append]
  cases hf : l1.find? (fun kv => kv.1 = k) with
  | some kv => rfl
  | none =>
    exfalso
    rw [List.find?_eq_none] at hf
    rcases List.mem_map.mp h with ⟨kv, hkv, he⟩
    exact hf kv hkv (by simp [he])

/-- Lookup in an appended list falls through to the right part when the key
is not in the left part. -/
theorem tableLookup_append_right {α : Type} (l1 l2 : List (String × α))
    (k : String) (h : k ∉ l1.map Prod.fst) :
    tableLookup (l1 ++ l2) k = tableLookup l2 k := by
  rw [tableLookup, List.find?_append]
  have hf : l1.find? (fun kv => kv.1 = k) = none := by
    rw [List.find?_eq_none]
    intro x hx hc
    apply h
    simp only [decide_eq_true_eq] at hc
    rw [← hc]
    exact List.mem_map_of_mem Prod.fst hx
  rw [hf]
  rfl

/-- Characterization of the `initTargets` scan: starting from an accumulator
whose keys avoid the mapping files' (distinct) internal names, a completed
scan appends exactly one entry per mapping file, keyed by the internal name
and holding the read result, and leaves the accumulated entries
untouched. -/
theorem initTargets_fold_char :
    ∀ (dir : List TrgFile) (acc reg : Registry),
      List.foldlM initTargetsStep acc dir = some reg →
      (∀ f ∈ jsonEntries dir, internalName f ∉ acc.map Prod.fst) →
      ((jsonEntries dir).map internalName).Nodup →
      reg.map Prod.fst
        = acc.map Prod.fst ++ (jsonEntries dir).map internalName ∧
      (∀ k, k ∈ acc.map Prod.fst → tableLookup reg k = tableLookup acc k) ∧
      (∀ f ∈ jsonEntries dir, tableLookup reg (internalName f)
        = (CTargetInfo.mkNew "Manual").readFile f.fname f.struct) := by
  intro dir
  induction dir with
  | nil =>
    intro acc reg h _ _
    rw [List.foldlM_nil] at h
    injection h with h2
    subst h2
    refine ⟨by simp [jsonEntries], fun k _ => rfl, ?_⟩
    intro f hf
    simp [jsonEntries] at hf
  | cons f dir ih =>
    intro acc reg h hfresh hnodup
    rw [List.foldlM_cons] at h
    by_cases hjson : ((splitext f.fname).2 = ".json" ∧ f.isFile = true)
    · have hjsoncons : jsonEntries (f :: dir) = f :: jsonEntries dir := by
        rw [jsonEntries, List.filter_cons,
          if_pos (by simp only [decide_eq_true_eq]; exact hjson)]
        rfl
      rw [initTargetsStep, if_pos hjson] at h
      cases hrf : (CTargetInfo.mkNew "Manual").readFile f.fname f.struct with
      | none =>
        rw [hrf] at h
        exact absurd h (by simp)
      | some info =>
        rw [hrf] at h
        have h2 : List.foldlM initTargetsStep
            (dictInsert acc info.name info) dir = some reg := h
        have hstname :=
          readFile_name (CTargetInfo.mkNew "Manual") f.fname f.struct info hrf
        have hIN : internalName f = info.name := by
          rw [internalName, hstname]
        rw [hjsoncons] at hfresh hnodup ⊢
        rw [List.map_cons, List.nodup_cons] at hnodup
        have hfreshf : info.name ∉ acc.map Prod.fst := by
          rw [← hIN]
          exact hfresh f (List.mem_cons_self _ _)
        have hacc2 : dictInsert acc info.name info
            = acc ++ [(info.name, info)] :=
          dictInsert_fresh acc info.name info hfreshf
        have hacc2keys : (dictInsert acc info.name info).map Prod.fst
            = acc.map Prod.fst ++ [info.name] := by
          rw [hacc2, List.map_append]
          rfl
        have hfresh2 : ∀ g ∈ jsonEntries dir, internalName g ∉
            (dictInsert acc info.name info).map Prod.fst := by
          intro g hg
          rw [hacc2keys]
          intro hc
          rcases List.mem_append.mp hc with hc1 | hc1
          · exact hfresh g (List.mem_cons_of_mem f hg) hc1
          · have he := List.mem_singleton.mp hc1
            apply hnodup.1
            rw [← hIN] at he
            rw [← he]
            exact List.mem_map_of_mem internalName hg
        obtain ⟨i1, i2, i3⟩ :=
          ih (dictInsert acc info.name info) reg h2 hfresh2 hnodup.2
        refine ⟨?_, ?_, ?_⟩
        · rw [i1, hacc2keys, List.map_cons, hIN, List.append_assoc]
          rfl
        · intro k hkmem
          rw [i2 k (by rw [hacc2keys]; exact List.mem_append_left _ hkmem),
            hacc2]
          exact tableLookup_append_left acc [(info.name, info)] k hkmem
        · intro g hg
          rcases List.mem_cons.mp hg with hg1 | hg1
          · subst hg1
            rw [hIN, hrf,
              i2 info.name (by
                rw [hacc2keys]
                exact List.mem_append_right _ (List.mem_singleton.mpr rfl)),
              hacc2,
              tableLookup_append_right acc [(info.name, info)] info.name hfreshf,
              tableLookup_cons, if_pos rfl]
          · exact i3 g hg1
    · have hjsoncons : jsonEntries (f :: dir) = jsonEntries dir := by
        rw [jsonEntries, List.filter_cons,
          if_neg (by simp only [decide_eq_true_eq]; exact hjson)]
        rfl
      rw [initTargetsStep, if_neg hjson] at h
      have h2 : List.foldlM initTargetsStep acc dir = some reg := h
      rw [hjsoncons] at hfresh hnodup ⊢
      exact ih acc reg h2 hfresh hnodup

/-- C7: after a completed `initTargets` run over a directory whose mapping
files carry distinct internal names, none equal to "Automatic", the registry
holds exactly one synthetic "Automatic" entry plus one entry per mapping
file found by the scan, each keyed by the name stored inside the file and
holding that file's read result. -/
theorem initTargets_registryContents (dir : List TrgFile) (reg : Registry)
    (hdist : ((jsonEntries dir).map internalName).Nodup)
    (hauto : "Automatic" ∉ (jsonEntries dir).map internalName)
    (h : initTargets dir = some reg) :
    reg.map Prod.fst = "Automatic" :: (jsonEntries dir).map internalName ∧
    tableLookup reg "Automatic" = some (CTargetInfo.mkNew "Automatic") ∧
    ∀ f ∈ jsonEntries dir,
      tableLookup reg (internalName f) =
        (CTargetInfo.mkNew "Manual").readFile f.fname f.struct := by
  rw [initTargets] at h
  have hpre : ∀ f ∈ jsonEntries dir, internalName f ∉
      ([("Automatic", CTargetInfo.mkNew "Automatic")] : Registry).map
        Prod.fst := by
    intro f hf hc
    apply hauto
    have he : internalName f = "Automatic" := List.mem_singleton.mp hc
    rw [← he]
    exact List.mem_map_of_mem internalName hf
  obtain ⟨h1, h2, h3⟩ := initTargets_fold_char dir _ reg h hpre hdist
  refine ⟨?_, ?_, h3⟩
  · rw [h1]
    rfl
  · rw [h2 "Automatic" (by simp)]
    rfl

/-- Witness for C7: the one-file directory containing `mhxFile` yields the
two-entry registry `mhxRegistry`. -/
theorem initTargets_registryContents_witness :
    (((jsonEntries [mhxFile]).map internalName).Nodup ∧
      "Automatic" ∉ (jsonEntries [mhxFile]).map internalName ∧
      initTargets [mhxFile] = some mhxRegistry) ∧
    (mhxRegistry.map Prod.fst
        = "Automatic" :: (jsonEntries [mhxFile]).map internalName ∧
      tableLookup mhxRegistry "Automatic"
        = some (CTargetInfo.mkNew "Automatic") ∧
      ∀ f ∈ jsonEntries [mhxFile],
        tableLookup mhxRegistry (internalName f) =
          (CTargetInfo.mkNew "Manual").readFile f.fname f.struct) :=
  ⟨⟨by decide, by decide, by decide⟩,
    initTargets_registryContents [mhxFile] mhxRegistry
      (by decide) (by decide) (by decide)⟩

/-- The initialized test holds exactly on non-empty registries. -/
theorem isTargetInited_true_iff (reg : Registry) :
    isTargetInited reg = true ↔ reg ≠ [] := by
  rw [isTargetInited]
  cases reg <;> simp [List.isEmpty]

/-- The `initTargets` scan never empties a non-empty accumulator. -/
theorem foldlM_initTargetsStep_ne_nil :
    ∀ (dir : List TrgFile) (acc reg : Registry),
      List.foldlM initTargetsStep acc dir = some reg → acc ≠ [] → reg ≠ [] := by
  intro dir
  induction dir with
  | nil =>
    intro acc reg h hne
    rw [List.foldlM_nil] at h
    injection h with h2
    rw [← h2]
    exact hne
  | cons f dir ih =>
    intro acc reg h hne
    rw [List.foldlM_cons] at h
    by_cases hjson : ((splitext f.fname).2 = ".json" ∧ f.isFile = true)
    · rw [initTargetsStep, if_pos hjson] at h
      cases hrf : (CTargetInfo.mkNew "Manual").readFile f.fname f.struct with
      | none =>
        rw [hrf] at h
        exact absurd h (by simp)
      | some info =>
        rw [hrf] at h
        have h2 : List.foldlM initTargetsStep
            (dictInsert acc info.name info) dir = some reg := h
        apply ih _ reg h2
        rw [dictInsert]
        by_cases hh : acc.any (fun kv => kv.1 = info.name) = true
        · rw [if_pos hh]
          intro hc
          exact hne (List.map_eq_nil_iff.mp hc)
        · rw [if_neg hh]
          simp
    · rw [initTargetsStep, if_neg hjson] at h
      have h2 : List.foldlM initTargetsStep acc dir = some reg := h
      exact ih acc reg h2 hne

/-- C10: `ensureTargetInited` rescans only when the registry is empty — on
every non-empty registry it is the identity — and running it twice in
succession has the same effect as running it once. -/
theorem ensureTargetInited_idempotent :
    (∀ (dir : List TrgFile) (reg : Registry), reg ≠ [] →
      ensureTargetInited dir reg = some reg) ∧
    (∀ (dir : List TrgFile) (reg reg2 : Registry),
      ensureTargetInited dir reg = some reg2 →
      ensureTargetInited dir reg2 = some reg2) := by
  have hpos : ∀ (dir : List TrgFile) (reg : Registry), reg ≠ [] →
      ensureTargetInited dir reg = some reg := by
    intro dir reg hne
    rw [ensureTargetInited, if_pos ((isTargetInited_true_iff reg).mpr hne)]
  refine ⟨hpos, ?_⟩
  intro dir reg reg2 h
  rw [ensureTargetInited] at h
  by_cases hin : isTargetInited reg = true
  · rw [if_pos hin] at h
    injection h with h2
    rw [h2] at hin
    rw [ensureTargetInited, if_pos hin]
  · rw [if_neg hin] at h
    apply hpos
    rw [initTargets] at h
    exact foldlM_initTargetsStep_ne_nil dir _ reg2 h (by simp)

/-- Witness for C10: the singleton registry is non-empty, `ensure` leaves it
alone, and a second run agrees with the first. -/
theorem ensureTargetInited_idempotent_witness :
    autoRegistry ≠ [] ∧
    ensureTargetInited [] autoRegistry = some autoRegistry ∧
    ensureTargetInited [] autoRegistry = some autoRegistry :=
  ⟨by decide,
    ensureTargetInited_idempotent.1 [] autoRegistry (by decide),
    ensureTargetInited_idempotent.2 [] autoRegistry autoRegistry (by decide)⟩
